import Mathlib

/-!
Verification of the chsqlar content-addressed archiver (src/main.rs) against
its design document.

The Rust source is embedded shallowly:

* SQLite tables (`files`, `chunks`) become association lists observed through
  `dbLookup`; `INSERT OR REPLACE` / `INSERT OR IGNORE` become `insertOrReplace`
  / `insertOrIgnore`.
* A rusqlite `Transaction` becomes a `Tx` value carrying the snapshot to
  restore on rollback, the transaction-local state, and the drop behaviour
  (rusqlite defaults to rollback-on-drop; the source never changes it and
  never calls `commit`).
* The external zstd codec is modelled by a lossless code (`encode_all` /
  `decode_all`); the archiver depends only on losslessness.
* The external SHA3-512 digest (rust-crypto) is a parameter `digest`;
  `hash_chunk digest` renders its output in lowercase hex exactly as
  `result_str` does.
* The external cdchunking ZPAQ chunker is modelled by `chunk_data`: the
  crate's slice-iterator structure (contiguous in-order chunks, cut after a
  byte whenever a rolling-hash predicate fires, trailing partial chunk
  emitted, empty input yields no chunks) with the ZPAQ-style rolling hash in
  `zpaqUpdate`.
* Filesystems are maps from path strings to byte lists; bytes are `Nat`.
-/

/-- The error kinds produced by the embedded operations: `notFound` models
rusqlite's `QueryReturnedNoRows`, `decodeError` a zstd decoding failure,
`ioError` a filesystem read failure, `collision` the `AlreadyExists` error of
a `create_new` open. -/
inductive DbError
  | notFound
  | decodeError
  | ioError
  | collision
deriving DecidableEq

deriving instance DecidableEq for Except

/-- Association-list lookup: models a SQLite `SELECT ... WHERE key = ?` on a
table with that primary key. -/
def dbLookup {α β : Type} [DecidableEq α] : List (α × β) → α → Option β
  | [], _ => none
  | (k1, v) :: rest, k => if k1 = k then some v else dbLookup rest k

/-- Remove every row with the given key. -/
def eraseKey {α β : Type} [DecidableEq α] : List (α × β) → α → List (α × β)
  | [], _ => []
  | (k1, v) :: rest, k =>
    if k1 = k then eraseKey rest k else (k1, v) :: eraseKey rest k

/-- Models SQLite `INSERT OR REPLACE` on a table with this primary key. -/
def insertOrReplace {α β : Type} [DecidableEq α] (l : List (α × β)) (k : α) (v : β) :
    List (α × β) :=
  (k, v) :: eraseKey l k

/-- Models SQLite `INSERT OR IGNORE`: when the key is already present the
table is left untouched. -/
def insertOrIgnore {α β : Type} [DecidableEq α] (l : List (α × β)) (k : α) (v : β) :
    List (α × β) :=
  match dbLookup l k with
  | some _ => l
  | none => (k, v) :: l

/-- Models `zstd::encode_all` (external crate): a lossless compression codec.
The archiver depends only on losslessness, i.e. on
`decode_all (encode_all d) = .ok d`; the model codec prepends the payload
length. -/
def encode_all (d : List Nat) : List Nat := d.length :: d

/-- Models `zstd::decode_all`, the inverse of `encode_all`; fails on input
that is not a valid encoding. -/
def decode_all (d : List Nat) : Except DbError (List Nat) :=
  match d with
  | [] => .error .decodeError
  | _ :: rest => .ok rest

/-- The lowercase hexadecimal digit characters used by rust-crypto's
`result_str`. -/
def hexChar (n : Nat) : Char :=
  match n with
  | 0 => '0' | 1 => '1' | 2 => '2' | 3 => '3' | 4 => '4' | 5 => '5'
  | 6 => '6' | 7 => '7' | 8 => '8' | 9 => '9' | 10 => 'a' | 11 => 'b'
  | 12 => 'c' | 13 => 'd' | 14 => 'e' | 15 => 'f'
  | _ => '0'

/-- Lowercase hex rendering of a byte sequence, two digits per byte: models
rust-crypto's `result_str`. -/
def toHexChars (bytes : List Nat) : List Char :=
  bytes.flatMap (fun b => [hexChar (b / 16 % 16), hexChar (b % 16)])

/-- Models `hash_chunk` (src/main.rs:154-160): the SHA3-512 digest of the
chunk rendered as a lowercase hex string. The Keccak permutation itself lives
in the external rust-crypto crate, so the digest function is a parameter;
`hash_chunk digest` composes it with the hex rendering of `result_str`. -/
def hash_chunk (digest : List Nat → List Nat) (data : List Nat) : List Char :=
  toHexChars (digest data)

/-- Rolling-hash state of the cdchunking ZPAQ boundary predicate: `o1` is the
byte-prediction table, `c1` the previous byte, `h` the 32-bit rolling hash. -/
structure ZState where
  o1 : Nat → Nat
  c1 : Nat
  h : Nat

/-- Fresh predicate state, used at the start of the input and after every
chunk boundary. -/
def zInit : ZState := ⟨fun _ => 0, 0, 0⟩

/-- One step of the cdchunking ZPAQ rolling-hash predicate for `ZPAQ::new(20)`
(src/main.rs:143): feed one byte, returning the new state and whether a chunk
boundary falls after this byte (the 32-bit hash dropping below
`2 ^ (32 - 20)`). -/
def zpaqUpdate (st : ZState) (b : Nat) : ZState × Bool :=
  let predicted := st.o1 st.c1
  let h1 :=
    if b = predicted then (st.h + b + 1) * 314159265 % 2 ^ 32
    else (st.h + b + 1) * 271828182 % 2 ^ 32
  (⟨fun x => if x = st.c1 then b else st.o1 x, b, h1⟩, decide (h1 < 2 ^ 12))

/-- The chunk-emission loop of cdchunking's `Chunker::slices`: accumulate the
current chunk byte by byte, cut (and reset the predicate state) whenever the
predicate fires, and emit the trailing partial chunk if it is nonempty. -/
def chunkLoop : ZState → List Nat → List (List Nat) → List Nat → List (List Nat)
  | _, cur, acc, [] => if cur = [] then acc else acc ++ [cur]
  | st, cur, acc, b :: rest =>
    let s := zpaqUpdate st b
    if s.2 then chunkLoop zInit [] (acc ++ [cur ++ [b]]) rest
    else chunkLoop s.1 (cur ++ [b]) acc rest

/-- Models `chunk_data` (src/main.rs:142-152): split a byte buffer into
content-defined chunks with the ZPAQ chunker. -/
def chunk_data (data : List Nat) : List (List Nat) :=
  chunkLoop zInit [] [] data

/-- Models the Rust `File` struct (src/main.rs:39-44); `name` is the path
rendered as a string, `chunks` the ordered list of chunk-address strings. -/
structure File where
  name : String
  size : Int
  chunks : List (List Char)
deriving DecidableEq

/-- One SQLite database state (equally: the state a transaction sees): the
`files` table (name, then size and chunks string) and the `chunks` table
(hash, then compressed data). -/
structure DbState where
  files : List (String × Int × List Char)
  chunks : List (List Char × List Nat)
deriving DecidableEq

/-- Models `file.chunks.join(";")` (src/main.rs:122). -/
def joinChunks (chunks : List (List Char)) : List Char :=
  List.intercalate [';'] chunks

/-- Models `chunks.split(";")` (src/main.rs:175). -/
def splitChunks (s : List Char) : List (List Char) :=
  s.splitOn ';'

/-- Models `get_file` (src/main.rs:162-182): select size and chunks string by
name (`query_row` fails with `QueryReturnedNoRows` when the name is absent)
and split the chunks string on ";". -/
def get_file (st : DbState) (name : String) : Except DbError File :=
  match dbLookup st.files name with
  | none => .error .notFound
  | some (size, chunksStr) => .ok ⟨name, size, splitChunks chunksStr⟩

/-- Models `put_file` (src/main.rs:121-130): join the chunk addresses with ";"
and `INSERT OR REPLACE` the row. -/
def put_file (st : DbState) (f : File) : DbState :=
  { st with files := insertOrReplace st.files f.name (f.size, joinChunks f.chunks) }

/-- Models `get_chunk` (src/main.rs:102-110): select the compressed data by
hash and decompress it. -/
def get_chunk (st : DbState) (hash : List Char) : Except DbError (List Nat) :=
  match dbLookup st.chunks hash with
  | none => .error .notFound
  | some data => decode_all data

/-- Models `put_chunk` (src/main.rs:112-119): the data is compressed
unconditionally, then `INSERT OR IGNORE`d keyed by the hash. -/
def put_chunk (st : DbState) (hash : List Char) (data : List Nat) : DbState :=
  let compressed := encode_all data
  { st with chunks := insertOrIgnore st.chunks hash compressed }

/-- A value together with the number of compression operations performed while
producing it. -/
structure Traced (α : Type) where
  val : α
  compressions : Nat

/-- Instrumented `put_chunk`: the same state transition as `put_chunk`
together with the count of `encode_all` invocations the call performs. In the
source (src/main.rs:113) `encode_all` runs unconditionally, before the
`INSERT OR IGNORE`, so every call performs exactly one compression even when
the hash is already present. -/
def put_chunk_t (st : DbState) (hash : List Char) (data : List Nat) : Traced DbState :=
  let compressed := encode_all data
  ⟨{ st with chunks := insertOrIgnore st.chunks hash compressed }, 1⟩

/-- Models `put_hash_chunk` (src/main.rs:94-100): hash the data, store the
chunk under that hash, and return the hash (here together with the updated
state). -/
def put_hash_chunk (digest : List Nat → List Nat) (st : DbState) (data : List Nat) :
    DbState × List Char :=
  let hash := hash_chunk digest data
  (put_chunk st hash data, hash)

/-- The for-loop of `get_file_data` (src/main.rs:86-89): fetch each referenced
chunk in order and concatenate. -/
def getChunksData (st : DbState) : List (List Char) → Except DbError (List Nat)
  | [] => .ok []
  | h :: rest =>
    match get_chunk st h with
    | .error e => .error e
    | .ok c =>
      match getChunksData st rest with
      | .error e => .error e
      | .ok r => .ok (c ++ r)

/-- Models `get_file_data` (src/main.rs:81-92). -/
def get_file_data (st : DbState) (name : String) : Except DbError (List Nat) :=
  match get_file st name with
  | .error e => .error e
  | .ok f => getChunksData st f.chunks

/-- The for-loop of `put_file_data` (src/main.rs:189-192): store every chunk,
collecting the ordered hash list. -/
def putChunksLoop (digest : List Nat → List Nat) (st : DbState) :
    List (List Nat) → DbState × List (List Char)
  | [] => (st, [])
  | c :: rest =>
    let p := put_hash_chunk digest st c
    let q := putChunksLoop digest p.1 rest
    (q.1, p.2 :: q.2)

/-- Models `put_file_data` (src/main.rs:184-199): read the existing record
(`get_file` fails with `QueryReturnedNoRows` when none exists), chunk the
data, store the chunks, and rewrite the record with the new chunk list. The
record's `size` field stays whatever `get_file` returned: the source never
updates it here. -/
def put_file_data (digest : List Nat → List Nat) (st : DbState) (name : String)
    (data : List Nat) : Except DbError DbState :=
  match get_file st name with
  | .error e => .error e
  | .ok f =>
    let r := putChunksLoop digest st (chunk_data data)
    .ok (put_file r.1 { f with chunks := r.2 })

/-- Models `add_file` (src/main.rs:213-229) over a modelled filesystem `fs`
(path string, then contents). `fs::metadata(..).len()` equals the content
length for the fixed filesystem of one single-threaded run, so `size` is the
length of the bytes just read. Writes a placeholder record (metadata size,
empty chunk list) and then `put_file_data`s the contents. -/
def add_file (fs : List (String × List Nat)) (digest : List Nat → List Nat)
    (st : DbState) (fpath fname : String) : Except DbError DbState :=
  match dbLookup fs fpath with
  | none => .error .ioError
  | some buf =>
    let st1 := put_file st ⟨fname, (buf.length : Int), []⟩
    put_file_data digest st1 fname buf

/-- rusqlite's `DropBehavior`; the source imports it but never uses it. -/
inductive TxDropBehavior
  | rollback
  | commit
  | ignore
deriving DecidableEq

/-- A rusqlite `Transaction`: the snapshot the database reverts to on
rollback, the transaction-local current state, and the drop behaviour. -/
structure Tx where
  snapshot : DbState
  cur : DbState
  behavior : TxDropBehavior

/-- Models `Connection::transaction()`: rusqlite's default drop behaviour is
`DropBehavior::Rollback`. -/
def txNew (db : DbState) : Tx := ⟨db, db, .rollback⟩

/-- The database state visible after the transaction value is dropped: only a
transaction whose drop behaviour was set to `commit` publishes its writes;
otherwise the snapshot is restored. -/
def txDrop (t : Tx) : DbState :=
  match t.behavior with
  | .commit => t.cur
  | _ => t.snapshot

/-- The per-file loop of `add_files_cmd`, over already-resolved and normalised
(path, archive-name) pairs; `resolve_files` and `normalise_path` perform the
actual filesystem traversal and are modelled separately. -/
def addFilesLoop (fs : List (String × List Nat)) (digest : List Nat → List Nat) :
    DbState → List (String × String) → Except DbError DbState
  | st, [] => .ok st
  | st, (fpath, fname) :: rest =>
    match add_file fs digest st fpath fname with
    | .error e => .error e
    | .ok st1 => addFilesLoop fs digest st1 rest

/-- Models `add_files_cmd` (src/main.rs:268-281): open one transaction, add
every file inside it, and return. The source never calls `commit()` and never
sets a drop behaviour, so at scope exit `txDrop` applies the default. Returns
the command result together with the database state visible after the call. -/
def add_files_cmd (fs : List (String × List Nat)) (digest : List Nat → List Nat)
    (db : DbState) (files : List (String × String)) :
    Except DbError Unit × DbState :=
  let t := txNew db
  match addFilesLoop fs digest t.cur files with
  | .ok cur1 => (.ok (), txDrop { t with cur := cur1 })
  | .error e => (.error e, txDrop t)

/-- Models `write_file_data_safe` (src/main.rs:283-291) over a modelled
filesystem (path string, then contents). `create_dir_all` touches only
directories, never regular-file contents, so it leaves the file map unchanged;
the `create_new(true)` open fails with `AlreadyExists` when the destination
file already exists, and writes the data to a fresh file otherwise. Returns
the result together with the filesystem after the call. -/
def write_file_data_safe (fs : List (String × List Nat)) (fname : String)
    (data : List Nat) : Except DbError Unit × List (String × List Nat) :=
  match dbLookup fs fname with
  | some _ => (.error .collision, fs)
  | none => (.ok (), insertOrReplace fs fname data)

/-- One `std::path` component: the leading root of an absolute path, or a
normal component. -/
inductive PathComp
  | root
  | normal (s : String)
deriving DecidableEq

/-- Models `Path::parent` on the component list: `None` for the empty
(relative) path and for the bare root, otherwise the path without its last
component. -/
def parentComps : List PathComp → Option (List PathComp)
  | [] => none
  | [PathComp.root] => none
  | l => some l.dropLast

/-- Models `Path::ancestors` with explicit fuel; every parent step shortens
the component list, so `l.length` fuel always suffices. -/
def ancestorsFuel : Nat → List PathComp → List (List PathComp)
  | 0, l => [l]
  | fuel + 1, l =>
    l ::
      (match parentComps l with
       | none => []
       | some q => ancestorsFuel fuel q)

/-- Models `Path::ancestors`: the path itself, then each successive parent. -/
def ancestors (l : List PathComp) : List (List PathComp) :=
  ancestorsFuel l.length l

/-- Models `Path::strip_prefix` on component lists: strips `pre` when it is a
prefix of `p`, and fails otherwise. -/
def stripPrefixC (pre p : List PathComp) : Option (List PathComp) :=
  if pre.isPrefixOf p then some (p.drop pre.length) else none

/-- Models `normalise_path` (src/main.rs:231-238): map `strip_prefix` over the
ancestors of `cwd`, keep the successes, and take the first. The source then
unwraps twice; the model returns an `Option` which is `none` exactly where the
source would panic. -/
def normalise_path (cwd p : List PathComp) : Option (List PathComp) :=
  ((((ancestors cwd).map (fun x => stripPrefixC x p)).filter Option.isSome).head?).join

/-! ## Association-list lemmas -/

theorem dbLookup_insertOrReplace_self {α β : Type} [DecidableEq α]
    (l : List (α × β)) (k : α) (v : β) :
    dbLookup (insertOrReplace l k v) k = some v := by
  simp [insertOrReplace, dbLookup]

theorem insertOrIgnore_present {α β : Type} [DecidableEq α]
    {l : List (α × β)} {k : α} {w : β} (v : β) (h : dbLookup l k = some w) :
    insertOrIgnore l k v = l := by
  simp [insertOrIgnore, h]

theorem dbLookup_insertOrIgnore_self {α β : Type} [DecidableEq α]
    {l : List (α × β)} {k : α} (v : β) (h : dbLookup l k = none) :
    dbLookup (insertOrIgnore l k v) k = some v := by
  simp [insertOrIgnore, h, dbLookup]

theorem dbLookup_insertOrIgnore_preserve {α β : Type} [DecidableEq α]
    {l : List (α × β)} {k : α} {v : β} (k1 : α) (v1 : β)
    (h : dbLookup l k = some v) :
    dbLookup (insertOrIgnore l k1 v1) k = some v := by
  unfold insertOrIgnore
  cases h1 : dbLookup l k1 with
  | some w => exact h
  | none =>
    have hne : k1 ≠ k := by
      intro he
      subst he
      rw [h] at h1
      exact Option.noConfusion h1
    simp [dbLookup, hne, h]

theorem dbLookup_insertOrIgnore_ne {α β : Type} [DecidableEq α]
    (l : List (α × β)) {k1 : α} (v1 : β) {k : α} (h : k1 ≠ k) :
    dbLookup (insertOrIgnore l k1 v1) k = dbLookup l k := by
  unfold insertOrIgnore
  cases h1 : dbLookup l k1 with
  | some w => rfl
  | none => simp [dbLookup, h]

/-! ## Chunker lemmas -/

theorem chunkLoop_flatten :
    ∀ (data : List Nat) (st : ZState) (cur : List Nat) (acc : List (List Nat)),
      (chunkLoop st cur acc data).flatten = acc.flatten ++ cur ++ data := by
  intro data
  induction data with
  | nil =>
    intro st cur acc
    by_cases h : cur = []
    · simp [chunkLoop, h]
    · simp [chunkLoop, h]
  | cons b rest ih =>
    intro st cur acc
    simp only [chunkLoop]
    cases h : (zpaqUpdate st b).2 with
    | true => simp [ih]
    | false => simp [ih]

theorem chunk_data_flatten (data : List Nat) : (chunk_data data).flatten = data := by
  simpa using chunkLoop_flatten data zInit [] []

theorem chunk_data_ne_nil {data : List Nat} (h : data ≠ []) : chunk_data data ≠ [] := by
  intro hc
  apply h
  have h2 := chunk_data_flatten data
  rw [hc] at h2
  simpa using h2.symm

theorem chunk_data_length_sum (data : List Nat) :
    ((chunk_data data).map List.length).sum = data.length := by
  rw [← List.length_flatten, chunk_data_flatten]

/-! ## Codec and hash lemmas -/

theorem decode_encode (d : List Nat) : decode_all (encode_all d) = .ok d := rfl

theorem hexChar_ne_semi (n : Nat) : hexChar n ≠ ';' := by
  unfold hexChar
  split <;> decide

theorem semi_not_mem_hash_chunk (digest : List Nat → List Nat) (data : List Nat) :
    ';' ∉ hash_chunk digest data := by
  unfold hash_chunk toHexChars
  intro h
  rcases List.mem_flatMap.mp h with ⟨b, -, hb⟩
  simp only [List.mem_cons, List.not_mem_nil, or_false] at hb
  rcases hb with h1 | h1 <;> exact hexChar_ne_semi _ h1.symm

/-! ## Chunks-string lemmas -/

theorem splitChunks_joinChunks {l : List (List Char)} (hl : l ≠ [])
    (hmem : ∀ a ∈ l, ';' ∉ a) : splitChunks (joinChunks l) = l := by
  unfold splitChunks joinChunks
  exact List.splitOn_intercalate l ';' hmem hl

theorem splitChunks_ne_nil (s : List Char) : splitChunks s ≠ [] := by
  unfold splitChunks List.splitOn
  exact List.splitOnP_ne_nil _ s

theorem splitChunks_nil : splitChunks [] = [[]] := rfl

/-! ## Database-operation lemmas -/

theorem put_file_chunks (st : DbState) (f : File) :
    (put_file st f).chunks = st.chunks := rfl

theorem putChunksLoop_files (digest : List Nat → List Nat) :
    ∀ (cs : List (List Nat)) (st : DbState),
      ((putChunksLoop digest st cs).1).files = st.files := by
  intro cs
  induction cs with
  | nil => intro st; rfl
  | cons c rest ih =>
    intro st
    simp only [putChunksLoop]
    rw [ih]
    rfl

theorem putChunksLoop_snd (digest : List Nat → List Nat) :
    ∀ (cs : List (List Nat)) (st : DbState),
      (putChunksLoop digest st cs).2 = cs.map (hash_chunk digest) := by
  intro cs
  induction cs with
  | nil => intro st; rfl
  | cons c rest ih =>
    intro st
    simp only [putChunksLoop, List.map_cons]
    rw [ih]
    rfl

theorem putChunksLoop_preserve (digest : List Nat → List Nat) :
    ∀ (cs : List (List Nat)) (st : DbState) (k : List Char) (v : List Nat),
      dbLookup st.chunks k = some v →
      dbLookup ((putChunksLoop digest st cs).1).chunks k = some v := by
  intro cs
  induction cs with
  | nil => intro st k v h; exact h
  | cons c rest ih =>
    intro st k v h
    exact ih _ k v (dbLookup_insertOrIgnore_preserve _ _ h)

theorem putChunksLoop_lookup (digest : List Nat → List Nat) :
    ∀ (cs : List (List Nat)) (st : DbState),
      (∀ c ∈ cs, dbLookup st.chunks (hash_chunk digest c) = none ∨
        dbLookup st.chunks (hash_chunk digest c) = some (encode_all c)) →
      cs.Pairwise (fun a b => hash_chunk digest a = hash_chunk digest b → a = b) →
      ∀ c ∈ cs,
        dbLookup ((putChunksLoop digest st cs).1).chunks (hash_chunk digest c) =
          some (encode_all c) := by
  intro cs
  induction cs with
  | nil => intro st _ _ c hc; exact absurd hc (List.not_mem_nil c)
  | cons c0 rest ih =>
    intro st hcoh hpw c hc
    have hpw1 := (List.pairwise_cons.mp hpw).1
    have hpw2 := (List.pairwise_cons.mp hpw).2
    have hself :
        dbLookup ((put_hash_chunk digest st c0).1).chunks (hash_chunk digest c0)
          = some (encode_all c0) := by
      show dbLookup (insertOrIgnore st.chunks (hash_chunk digest c0) (encode_all c0))
        (hash_chunk digest c0) = some (encode_all c0)
      rcases hcoh c0 (List.mem_cons_self c0 rest) with h | h
      · exact dbLookup_insertOrIgnore_self _ h
      · rw [insertOrIgnore_present _ h]
        exact h
    have hcoh1 : ∀ c1 ∈ rest,
        dbLookup ((put_hash_chunk digest st c0).1).chunks (hash_chunk digest c1) = none ∨
        dbLookup ((put_hash_chunk digest st c0).1).chunks (hash_chunk digest c1)
          = some (encode_all c1) := by
      intro c1 hc1
      by_cases he : hash_chunk digest c1 = hash_chunk digest c0
      · have hcc : c0 = c1 := hpw1 c1 hc1 he.symm
        subst hcc
        right
        exact hself
      · have hred :
            dbLookup ((put_hash_chunk digest st c0).1).chunks (hash_chunk digest c1)
              = dbLookup st.chunks (hash_chunk digest c1) := by
          show dbLookup (insertOrIgnore st.chunks (hash_chunk digest c0) (encode_all c0))
            (hash_chunk digest c1) = dbLookup st.chunks (hash_chunk digest c1)
          exact dbLookup_insertOrIgnore_ne _ _ (fun hh => he hh.symm)
        rw [hred]
        exact hcoh c1 (List.mem_cons_of_mem _ hc1)
    rcases List.mem_cons.mp hc with rfl | hcr
    · show dbLookup
        ((putChunksLoop digest (put_hash_chunk digest st c).1 rest).1).chunks
        (hash_chunk digest c) = some (encode_all c)
      exact putChunksLoop_preserve digest rest _ _ _ hself
    · show dbLookup
        ((putChunksLoop digest (put_hash_chunk digest st c0).1 rest).1).chunks
        (hash_chunk digest c) = some (encode_all c)
      exact ih _ hcoh1 hpw2 c hcr

theorem getChunksData_map (st : DbState) (f : List Nat → List Char) :
    ∀ (cs : List (List Nat)),
      (∀ c ∈ cs, get_chunk st (f c) = .ok c) →
      getChunksData st (cs.map f) = .ok cs.flatten := by
  intro cs
  induction cs with
  | nil => intro _; rfl
  | cons c rest ih =>
    intro h
    have h1 := h c (List.mem_cons_self c rest)
    have h2 : getChunksData st (rest.map f) = .ok rest.flatten :=
      ih (fun c1 hc1 => h c1 (List.mem_cons_of_mem _ hc1))
    simp only [List.map_cons, getChunksData, h1, h2, List.flatten_cons]

/-! ## Claim theorems -/

/-- C1 (amended): for every nonempty byte buffer `data` and name, if
`put_file_data` succeeds — and the pre-state's chunk store is coherent with
the hash on `data`'s chunks (each stored row under one of their hashes holds
exactly that chunk, the no-collision assumption of a content-addressed store)
— then `get_file_data` inside the same transaction state returns exactly
`data`. The original claim also covered the empty buffer; that case fails (see
the counterexample). -/
theorem put_get_round_trip_nonempty (digest : List Nat → List Nat)
    (st st1 : DbState) (name : String) (data : List Nat)
    (hne : data ≠ [])
    (hcoh : ∀ c ∈ chunk_data data,
      dbLookup st.chunks (hash_chunk digest c) = none ∨
      dbLookup st.chunks (hash_chunk digest c) = some (encode_all c))
    (hpw : (chunk_data data).Pairwise
      (fun a b => hash_chunk digest a = hash_chunk digest b → a = b))
    (hput : put_file_data digest st name data = .ok st1) :
    get_file_data st1 name = .ok data := by
  rcases hf : dbLookup st.files name with - | ⟨sz, ch⟩
  · simp [put_file_data, get_file, hf] at hput
  · simp only [put_file_data, get_file, hf] at hput
    have hmap : (putChunksLoop digest st (chunk_data data)).2
        = (chunk_data data).map (hash_chunk digest) := putChunksLoop_snd digest _ st
    have hsne : (putChunksLoop digest st (chunk_data data)).2 ≠ [] := by
      rw [hmap]
      intro hx
      exact chunk_data_ne_nil hne (List.map_eq_nil_iff.mp hx)
    have hsemi : ∀ a ∈ (putChunksLoop digest st (chunk_data data)).2, ';' ∉ a := by
      rw [hmap]
      intro a ha
      rcases List.mem_map.mp ha with ⟨c, -, rfl⟩
      exact semi_not_mem_hash_chunk digest c
    have hsplit :
        splitChunks (joinChunks (putChunksLoop digest st (chunk_data data)).2)
          = (putChunksLoop digest st (chunk_data data)).2 :=
      splitChunks_joinChunks hsne hsemi
    have hchunkok : ∀ c ∈ chunk_data data,
        get_chunk (put_file (putChunksLoop digest st (chunk_data data)).1
            ⟨name, sz, (putChunksLoop digest st (chunk_data data)).2⟩)
          (hash_chunk digest c) = .ok c := by
      intro c hc
      have hl := putChunksLoop_lookup digest (chunk_data data) st hcoh hpw c hc
      unfold get_chunk
      rw [put_file_chunks, hl]
      exact decode_encode c
    have hgf : get_file (put_file (putChunksLoop digest st (chunk_data data)).1
          ⟨name, sz, (putChunksLoop digest st (chunk_data data)).2⟩) name
        = .ok ⟨name, sz, (putChunksLoop digest st (chunk_data data)).2⟩ := by
      unfold get_file put_file
      simp only [dbLookup_insertOrReplace_self]
      rw [hsplit]
    have hfinal := getChunksData_map
      (put_file (putChunksLoop digest st (chunk_data data)).1
        ⟨name, sz, (putChunksLoop digest st (chunk_data data)).2⟩)
      (hash_chunk digest) (chunk_data data) hchunkok
    rw [chunk_data_flatten] at hfinal
    have hst1 : st1 = put_file (putChunksLoop digest st (chunk_data data)).1
        ⟨name, sz, (putChunksLoop digest st (chunk_data data)).2⟩ :=
      (Except.ok.inj hput).symm
    rw [hst1]
    unfold get_file_data
    rw [hgf]
    show getChunksData (put_file (putChunksLoop digest st (chunk_data data)).1
      ⟨name, sz, (putChunksLoop digest st (chunk_data data)).2⟩)
      (putChunksLoop digest st (chunk_data data)).2 = .ok data
    nth_rewrite 2 [hmap]
    exact hfinal

/-- C1 (counterexample): round-trip fails for the empty buffer. With a record
present for "f", `put_file_data` of `[]` succeeds (storing an empty chunks
string), but `get_file_data` then splits that empty string into the
one-element address list containing the empty string, looks the empty-string
address up in the chunk store, and fails with `notFound`. -/
theorem put_get_round_trip_empty_fails :
    put_file_data (fun d => d) ⟨[("f", (0, []))], []⟩ "f" []
      = .ok ⟨[("f", (0, []))], []⟩ ∧
    get_file_data ⟨[("f", (0, []))], []⟩ "f" = .error DbError.notFound :=
  ⟨rfl, rfl⟩

/-- Witness for `put_get_round_trip_nonempty` at a concrete input. -/
theorem put_get_round_trip_nonempty_witness :
    get_file_data ⟨[("f", (1, ['0', '7']))], [(['0', '7'], [1, 7])]⟩ "f" = .ok [7] :=
  put_get_round_trip_nonempty (fun d => d) ⟨[("f", (1, ['x']))], []⟩
    ⟨[("f", (1, ['0', '7']))], [(['0', '7'], [1, 7])]⟩ "f" [7]
    (by decide) (by decide) (by decide) rfl

/-- C2 (code-bug evidence): `add_files_cmd` never commits. The source opens a
transaction, adds the whole batch, and returns without ever calling `commit()`
or setting a drop behaviour; a rusqlite transaction rolls back when dropped,
so the visible database equals the pre-call snapshot in every case — even a
successful batch publishes nothing. The concrete conjuncts run a successful
one-file add against an empty database: the command reports success, yet the
visible state afterwards is still the empty database. -/
theorem add_files_cmd_never_commits :
    (∀ (fs : List (String × List Nat)) (digest : List Nat → List Nat)
        (db : DbState) (files : List (String × String)),
      (add_files_cmd fs digest db files).2 = db) ∧
    (add_files_cmd [("a", [7])] (fun d => d) ⟨[], []⟩ [("a", "a")]).1 = .ok () ∧
    (add_files_cmd [("a", [7])] (fun d => d) ⟨[], []⟩ [("a", "a")]).2 = ⟨[], []⟩ := by
  refine ⟨?_, rfl, rfl⟩
  intro fs digest db files
  simp only [add_files_cmd, txNew, txDrop]
  cases h : addFilesLoop fs digest db files <;> simp

/-- C3 (counterexample): `put_file_data` does not write a record when none
exists for the name — it fails. On an empty database it first calls
`get_file`, whose `query_row` finds no row for "f" and errors with
`QueryReturnedNoRows`. -/
theorem put_file_data_requires_record :
    put_file_data (fun d => d) ⟨[], []⟩ "f" [7] = .error DbError.notFound := rfl

/-- C3 (amended): `put_file_data name data` requires a record for `name` to be
present already: when none is it fails with `notFound`; when one is present it
succeeds and replaces that record, rewriting its chunk list to the ordered
addresses of `data`'s chunks while retaining the record's previous `size`
field. -/
theorem put_file_data_existing_record (digest : List Nat → List Nat)
    (st : DbState) (name : String) (data : List Nat) :
    (dbLookup st.files name = none →
      put_file_data digest st name data = .error DbError.notFound) ∧
    (∀ (sz : Int) (ch : List Char), dbLookup st.files name = some (sz, ch) →
      ∃ st1, put_file_data digest st name data = .ok st1 ∧
        dbLookup st1.files name
          = some (sz, joinChunks ((chunk_data data).map (hash_chunk digest)))) := by
  constructor
  · intro h
    simp [put_file_data, get_file, h]
  · intro sz ch h
    refine ⟨put_file (putChunksLoop digest st (chunk_data data)).1
      ⟨name, sz, (putChunksLoop digest st (chunk_data data)).2⟩, ?_, ?_⟩
    · simp only [put_file_data, get_file, h]
    · show dbLookup (insertOrReplace
          ((putChunksLoop digest st (chunk_data data)).1).files name
          (sz, joinChunks (putChunksLoop digest st (chunk_data data)).2)) name
        = some (sz, joinChunks ((chunk_data data).map (hash_chunk digest)))
      rw [dbLookup_insertOrReplace_self, putChunksLoop_snd]

/-- Witness for `put_file_data_existing_record` at concrete inputs. -/
theorem put_file_data_existing_record_witness :
    put_file_data (fun d => d) ⟨[], []⟩ "g" [3] = .error DbError.notFound ∧
    ∃ st1, put_file_data (fun d => d) ⟨[("g", (5, ['x']))], []⟩ "g" [3] = .ok st1 ∧
      dbLookup st1.files "g"
        = some (5, joinChunks ((chunk_data [3]).map (hash_chunk (fun d => d)))) :=
  ⟨(put_file_data_existing_record (fun d => d) ⟨[], []⟩ "g" [3]).1 rfl,
   (put_file_data_existing_record (fun d => d) ⟨[("g", (5, ['x']))], []⟩ "g" [3]).2
     5 ['x'] rfl⟩

/-- C4 (counterexample): archiving a 0-byte file stores `size = 0` with an
empty chunks string, but reading the file's data back — which is what
extraction does — fails: the empty chunks string splits into the one-element
list containing the empty-string address, whose chunk lookup errors with
`notFound`, instead of reproducing a 0-byte file. -/
theorem empty_file_extract_fails :
    add_file [("e", [])] (fun d => d) ⟨[], []⟩ "e" "e"
      = .ok ⟨[("e", (0, []))], []⟩ ∧
    get_file_data ⟨[("e", (0, []))], []⟩ "e" = .error DbError.notFound :=
  ⟨rfl, rfl⟩

/-- C4 (amended): chunking the empty buffer yields zero chunks, and archiving
a 0-byte file succeeds with a record carrying `size = 0` and the empty
(joined) chunk-address list; but reading the data back then fails with
`notFound` — the empty chunks string splits into the one-element
empty-string address, which is not in the chunk store — rather than
reproducing the 0-byte file. -/
theorem empty_file_archive (fs : List (String × List Nat))
    (digest : List Nat → List Nat) (st : DbState) (fpath fname : String)
    (hfs : dbLookup fs fpath = some [])
    (hchunk : dbLookup st.chunks [] = none) :
    chunk_data [] = [] ∧
    ∃ st1, add_file fs digest st fpath fname = .ok st1 ∧
      dbLookup st1.files fname = some (0, joinChunks []) ∧
      get_file_data st1 fname = .error DbError.notFound := by
  have hga : get_file (put_file st ⟨fname, 0, []⟩) fname
      = .ok ⟨fname, 0, [[]]⟩ := by
    unfold get_file put_file
    simp only [dbLookup_insertOrReplace_self]
    rfl
  have hgb : get_file (put_file (put_file st ⟨fname, 0, []⟩) ⟨fname, 0, []⟩) fname
      = .ok ⟨fname, 0, [[]]⟩ := by
    unfold get_file put_file
    simp only [dbLookup_insertOrReplace_self]
    rfl
  have hcl : get_chunk (put_file (put_file st ⟨fname, 0, []⟩) ⟨fname, 0, []⟩) []
      = .error DbError.notFound := by
    unfold get_chunk
    rw [put_file_chunks, put_file_chunks, hchunk]
  refine ⟨rfl, put_file (put_file st ⟨fname, 0, []⟩) ⟨fname, 0, []⟩, ?_, ?_, ?_⟩
  · simp only [add_file, hfs]
    show put_file_data digest (put_file st ⟨fname, 0, []⟩) fname []
      = .ok (put_file (put_file st ⟨fname, 0, []⟩) ⟨fname, 0, []⟩)
    unfold put_file_data
    rw [hga]
    rfl
  · show dbLookup (insertOrReplace
        ((put_file st ⟨fname, 0, []⟩)).files fname (0, joinChunks [])) fname
      = some (0, joinChunks [])
    exact dbLookup_insertOrReplace_self _ _ _
  · unfold get_file_data
    rw [hgb]
    show getChunksData (put_file (put_file st ⟨fname, 0, []⟩) ⟨fname, 0, []⟩) [[]]
      = .error DbError.notFound
    unfold getChunksData
    rw [hcl]

/-- Witness for `empty_file_archive` at concrete inputs. -/
theorem empty_file_archive_witness :
    chunk_data [] = [] ∧
    ∃ st1, add_file [("z", [])] (fun d => d) ⟨[], []⟩ "z" "z" = .ok st1 ∧
      dbLookup st1.files "z" = some (0, joinChunks []) ∧
      get_file_data st1 "z" = .error DbError.notFound :=
  empty_file_archive [("z", [])] (fun d => d) ⟨[], []⟩ "z" "z" rfl rfl

/-- C5 (counterexample): `put_file_data` rewrites a record's chunk list
without updating `size`. Starting from a record for "f" with `size = 5` and
storing 3 bytes of data under "f" succeeds and leaves the stored record with
`size = 5`, while its referenced chunks total 3 bytes. -/
theorem put_file_data_stale_size :
    ((put_file_data (fun d => d) ⟨[("f", (5, ['x']))], []⟩ "f" [1, 2, 3]).map
        (fun st1 => dbLookup st1.files "f"))
      = .ok (some (5, joinChunks
          ((chunk_data [1, 2, 3]).map (hash_chunk (fun d => d))))) ∧
    ((chunk_data [1, 2, 3]).map List.length).sum = 3 ∧ (5 : Int) ≠ 3 :=
  ⟨rfl, rfl, by decide⟩

/-- C5 (amended): a record written by `add_file` does satisfy the size
invariant: its `size` equals the byte length of the file's contents, which
equals the sum of the lengths of the chunks its address list references. This
holds only because `add_file` takes the size from `fs::metadata` of the very
file it just read and then chunks those same bytes; `put_file_data` itself
retains the pre-existing record's `size` and never recomputes it (see the
counterexample). -/
theorem add_file_size_invariant (fs : List (String × List Nat))
    (digest : List Nat → List Nat) (st : DbState) (fpath fname : String)
    (buf : List Nat) (hfs : dbLookup fs fpath = some buf) :
    ∃ st1, add_file fs digest st fpath fname = .ok st1 ∧
      dbLookup st1.files fname
        = some ((buf.length : Int),
            joinChunks ((chunk_data buf).map (hash_chunk digest))) ∧
      ((chunk_data buf).map List.length).sum = buf.length := by
  have hga : get_file (put_file st ⟨fname, (buf.length : Int), []⟩) fname
      = .ok ⟨fname, (buf.length : Int), [[]]⟩ := by
    unfold get_file put_file
    simp only [dbLookup_insertOrReplace_self]
    rfl
  refine ⟨put_file
      (putChunksLoop digest (put_file st ⟨fname, (buf.length : Int), []⟩)
        (chunk_data buf)).1
      ⟨fname, (buf.length : Int),
        (putChunksLoop digest (put_file st ⟨fname, (buf.length : Int), []⟩)
          (chunk_data buf)).2⟩, ?_, ?_, ?_⟩
  · simp only [add_file, hfs]
    show put_file_data digest (put_file st ⟨fname, (buf.length : Int), []⟩) fname buf
      = _
    unfold put_file_data
    rw [hga]
  · show dbLookup (insertOrReplace
        ((putChunksLoop digest (put_file st ⟨fname, (buf.length : Int), []⟩)
          (chunk_data buf)).1).files fname
        ((buf.length : Int),
          joinChunks (putChunksLoop digest
            (put_file st ⟨fname, (buf.length : Int), []⟩) (chunk_data buf)).2))
        fname
      = some ((buf.length : Int),
          joinChunks ((chunk_data buf).map (hash_chunk digest)))
    rw [dbLookup_insertOrReplace_self, putChunksLoop_snd]
  · exact chunk_data_length_sum buf

/-- Witness for `add_file_size_invariant` at concrete inputs. -/
theorem add_file_size_invariant_witness :
    ∃ st1, add_file [("a", [7])] (fun d => d) ⟨[], []⟩ "a" "a" = .ok st1 ∧
      dbLookup st1.files "a"
        = some ((List.length [7] : Int),
            joinChunks ((chunk_data [7]).map (hash_chunk (fun d => d)))) ∧
      ((chunk_data [7]).map List.length).sum = List.length [7] :=
  add_file_size_invariant [("a", [7])] (fun d => d) ⟨[], []⟩ "a" "a" [7] rfl

/-- C6 (counterexample): re-inserting an existing address leaves the stored
entry unchanged, but the bytes ARE re-compressed: the instrumented `put_chunk`
performs one `encode_all` invocation even though the address is already
present (the source compresses unconditionally before the `INSERT OR
IGNORE`), contradicting the claim's "no re-compression is performed". -/
theorem put_chunk_recompresses :
    (put_chunk_t ⟨[], [(['0', '7'], [1, 7])]⟩ ['0', '7'] [7]).val
      = ⟨[], [(['0', '7'], [1, 7])]⟩ ∧
    (put_chunk_t ⟨[], [(['0', '7'], [1, 7])]⟩ ['0', '7'] [7]).compressions ≠ 0 :=
  ⟨rfl, by decide⟩

/-- C6 (amended): for an address already present, `put_chunk` leaves the
store unchanged — the `INSERT OR IGNORE` keeps the stored entry immutable and
performs no re-write — and for an absent address the compressed bytes are
persisted keyed by the address; however every call compresses the bytes: the
source runs `encode_all` unconditionally before the insert. -/
theorem put_chunk_idempotent (st : DbState) (hash : List Char)
    (data w : List Nat) :
    (dbLookup st.chunks hash = some w → put_chunk st hash data = st) ∧
    (dbLookup st.chunks hash = none →
      dbLookup (put_chunk st hash data).chunks hash = some (encode_all data)) ∧
    (put_chunk_t st hash data).compressions = 1 := by
  refine ⟨?_, ?_, rfl⟩
  · intro h
    have h2 : insertOrIgnore st.chunks hash (encode_all data) = st.chunks :=
      insertOrIgnore_present _ h
    show DbState.mk st.files (insertOrIgnore st.chunks hash (encode_all data)) = st
    rw [h2]
  · intro h
    unfold put_chunk
    exact dbLookup_insertOrIgnore_self _ h

/-- Witness for `put_chunk_idempotent` at concrete inputs. -/
theorem put_chunk_idempotent_witness :
    put_chunk ⟨[], [(['a'], [1, 7])]⟩ ['a'] [9] = ⟨[], [(['a'], [1, 7])]⟩ ∧
    dbLookup (put_chunk ⟨[], []⟩ ['a'] [9]).chunks ['a'] = some (encode_all [9]) :=
  ⟨(put_chunk_idempotent ⟨[], [(['a'], [1, 7])]⟩ ['a'] [9] [1, 7]).1 rfl,
   (put_chunk_idempotent ⟨[], []⟩ ['a'] [9] []).2.1 rfl⟩

/-- C7 (confirmed): extraction writes are create-only. When the destination
path already holds a file, `write_file_data_safe` fails with the collision
error and returns the filesystem completely unmodified — in particular the
pre-existing file still holds its old content. -/
theorem write_file_data_safe_collision (fs : List (String × List Nat))
    (fname : String) (data c : List Nat)
    (h : dbLookup fs fname = some c) :
    write_file_data_safe fs fname data = (.error DbError.collision, fs) ∧
    dbLookup (write_file_data_safe fs fname data).2 fname = some c := by
  have h1 : write_file_data_safe fs fname data = (.error DbError.collision, fs) := by
    unfold write_file_data_safe
    rw [h]
  refine ⟨h1, ?_⟩
  rw [h1]
  exact h

/-- Witness for `write_file_data_safe_collision` at concrete inputs. -/
theorem write_file_data_safe_collision_witness :
    write_file_data_safe [("out/a", [1, 2])] "out/a" [9, 9]
      = (.error DbError.collision, [("out/a", [1, 2])]) ∧
    dbLookup (write_file_data_safe [("out/a", [1, 2])] "out/a" [9, 9]).2 "out/a"
      = some [1, 2] :=
  write_file_data_safe_collision [("out/a", [1, 2])] "out/a" [9, 9] [1, 2] rfl

/-- C8 (counterexample): join-then-split does not recover the empty address
list, which the code does persist (a 0-byte file's record): the empty list
joins to the empty string, which splits back into the one-element list
containing the empty string. -/
theorem join_split_empty_list :
    splitChunks (joinChunks []) = [[]] ∧ ([[]] : List (List Char)) ≠ [] :=
  ⟨rfl, by decide⟩

/-- C8 (amended): every address the hasher produces is a lowercase hex string
and never contains the delimiter ';', and joining a nonempty address list
with ';' then splitting on ';' recovers exactly the original ordered list
(for the empty list see the counterexample: it splits back as the one-element
empty-string list). -/
theorem address_no_delimiter_round_trip (digest : List Nat → List Nat)
    (l : List (List Char)) (hl : l ≠ []) (hmem : ∀ a ∈ l, ';' ∉ a) :
    (∀ d : List Nat, ';' ∉ hash_chunk digest d) ∧
    splitChunks (joinChunks l) = l :=
  ⟨fun d => semi_not_mem_hash_chunk digest d, splitChunks_joinChunks hl hmem⟩

/-- Witness for `address_no_delimiter_round_trip` at concrete inputs. -/
theorem address_no_delimiter_round_trip_witness :
    (∀ d : List Nat, ';' ∉ hash_chunk (fun x => x) d) ∧
    splitChunks (joinChunks [['a'], ['b', 'c']]) = [['a'], ['b', 'c']] :=
  address_no_delimiter_round_trip (fun x => x) [['a'], ['b', 'c']]
    (by decide) (by decide)

/-- C9 (confirmed): splitting the persisted chunks string on the delimiter
always yields at least one element, so a record stored with an empty chunk
list is read back by `get_file` as the one-element list containing the
empty-string address. -/
theorem split_always_nonempty :
    (∀ s : List Char, splitChunks s ≠ []) ∧
    (∀ (st : DbState) (name : String) (sz : Int),
      get_file (put_file st ⟨name, sz, []⟩) name = .ok ⟨name, sz, [[]]⟩) := by
  refine ⟨splitChunks_ne_nil, ?_⟩
  intro st name sz
  unfold get_file put_file
  simp only [dbLookup_insertOrReplace_self]
  rfl

/-- The bare root is among the ancestors of any absolute path, given enough
fuel. -/
theorem root_mem_ancestorsFuel :
    ∀ (fuel : Nat) (cs : List PathComp), cs.length < fuel →
      [PathComp.root] ∈ ancestorsFuel fuel (PathComp.root :: cs) := by
  intro fuel
  induction fuel with
  | zero => intro cs h; exact absurd h (Nat.not_lt_zero _)
  | succ n ih =>
    intro cs h
    cases cs with
    | nil => simp [ancestorsFuel, parentComps]
    | cons c cs1 =>
      simp only [ancestorsFuel]
      apply List.mem_cons_of_mem
      show [PathComp.root] ∈ ancestorsFuel n (PathComp.root :: (c :: cs1).dropLast)
      apply ih
      have hlen : (c :: cs1).dropLast.length = cs1.length := by
        rw [List.length_dropLast]
        rfl
      rw [hlen]
      exact Nat.lt_of_succ_lt_succ h

/-- In a list of options containing at least one `some`, the first kept by a
`filter Option.isSome` is a `some`. -/
theorem first_some_isSome {γ : Type} :
    ∀ (l : List (Option γ)), (∃ x ∈ l, x.isSome = true) →
      (((l.filter Option.isSome).head?).join).isSome = true := by
  intro l h
  rcases h with ⟨x, hx, hxs⟩
  have hne : l.filter Option.isSome ≠ [] := by
    intro hf
    have hmem : x ∈ l.filter Option.isSome := List.mem_filter.mpr ⟨hx, hxs⟩
    rw [hf] at hmem
    exact List.not_mem_nil x hmem
  rcases hfl : l.filter Option.isSome with - | ⟨y, ys⟩
  · exact absurd hfl hne
  · have hy : y ∈ l.filter Option.isSome := by
      rw [hfl]
      exact List.mem_cons_self y ys
    have hys : y.isSome = true := (List.mem_filter.mp hy).2
    exact hys

/-- C10 (confirmed): for absolute (canonicalised) `cwd` and `p`,
`normalise_path` never panics: the bare root is always among `cwd`'s
ancestors and is a prefix of any absolute `p`, so the strip-prefix search
always finds a success for the source's two unwraps. -/
theorem normalise_path_total (cwd p : List PathComp)
    (hcwd : ∃ cs, cwd = PathComp.root :: cs)
    (hp : ∃ ps, p = PathComp.root :: ps) :
    (normalise_path cwd p).isSome = true := by
  rcases hcwd with ⟨cs, rfl⟩
  rcases hp with ⟨ps, rfl⟩
  unfold normalise_path
  apply first_some_isSome
  refine ⟨stripPrefixC [PathComp.root] (PathComp.root :: ps), ?_, ?_⟩
  · apply List.mem_map_of_mem
    unfold ancestors
    apply root_mem_ancestorsFuel
    simp
  · simp [stripPrefixC, List.isPrefixOf]

/-- Witness for `normalise_path_total` at concrete inputs. -/
theorem normalise_path_total_witness :
    (normalise_path [PathComp.root, PathComp.normal "a"]
      [PathComp.root, PathComp.normal "a", PathComp.normal "b"]).isSome = true :=
  normalise_path_total [PathComp.root, PathComp.normal "a"]
    [PathComp.root, PathComp.normal "a", PathComp.normal "b"]
    ⟨[PathComp.normal "a"], rfl⟩
    ⟨[PathComp.normal "a", PathComp.normal "b"], rfl⟩
